import Mathlib

/-!
Verification of the hybrid inline/heap growable container in src/lib.rs
(a small-vector container, SmallVec).

Shallow-embedding conventions:
* usize values are Nat; arithmetic the source performs with checked
  operations is modelled with the same checks against usizeMax, while
  additions the source performs unchecked (which cannot overflow for any
  allocatable length) are plain Nat additions.
* A raw element buffer is a List (Option item): a slot holding none is
  uninitialized memory, a slot holding some a stores the value a.
  ptr::write is List.set with some, ptr::read of slot i is getD i none,
  ptr::copy / ptr::copy_nonoverlapping are the memCopy / copyFront
  functions below (memmove semantics: every source slot is read before
  any destination slot is written).
* The SmallVec struct is mirrored field by field: the capacity field is
  the dual-purpose discriminant, the data field is the two-variant
  storage.  Reading the wrong union arm (debug_unreachable! in the
  source, undefined behaviour in release builds) is modelled by the
  deterministic junk values [] and 0.
* Functions that can panic return Except S S; the error value is the
  state the container is left in when the panic is raised.  Allocation
  itself is assumed to succeed (the source aborts on allocation
  failure), and deallocate calls have no observable effect on the
  abstract state, so they are noted in comments only.
-/

namespace SmallVecSpec

/-- Largest value of the 64-bit usize type. -/
def usizeMax : Nat := 2 ^ 64 - 1

/-- Largest value of the 64-bit isize type. -/
def isizeMax : Nat := 2 ^ 63 - 1

/-- Fuel-driven recursion for nextPow2: npot n = 1 for n tiny, otherwise
2 * npot (ceil (n / 2)).  The fuel argument only makes the recursion
structural; nextPow2 supplies fuel n, which is always enough. -/
def np2go : Nat → Nat → Nat
  | 0, _ => 1
  | fuel + 1, n => if 2 ≤ n then 2 * np2go fuel ((n + 1) / 2) else 1

/-- Models usize::next_power_of_two: the smallest power of two that is
greater than or equal to the argument (1 for arguments 0 and 1). -/
def nextPow2 (n : Nat) : Nat := np2go n n

/-- Models usize::checked_add. -/
def checkedAdd (a b : Nat) : Option Nat :=
  if a + b ≤ usizeMax then some (a + b) else none

/-- Models usize::checked_next_power_of_two: none when the next power of
two does not fit in usize. -/
def checkedNextPow2 (n : Nat) : Option Nat :=
  if nextPow2 n ≤ usizeMax then some (nextPow2 n) else none

/-- The capacity targeted by SmallVec::reserve:
len.checked_add(additional).and_then(checked_next_power_of_two)
.unwrap_or(usize::max_value()). -/
def rTarget (len additional : Nat) : Nat :=
  ((checkedAdd len additional).bind checkedNextPow2).getD usizeMax

/-- The two storage variants of SmallVecData: an inline fixed buffer, or
a heap allocation together with the current element count. -/
inductive SVData (α : Type) : Type
  | inline (buf : List (Option α))
  | heap (buf : List (Option α)) (len : Nat)
deriving DecidableEq

/-- The SmallVec struct: the capacity field doubles as the discriminant
(capacity ≤ N means the inline variant is in use and capacity is the
length; capacity > N means the heap variant is in use and capacity is
the allocation size).  N is the inline capacity A::size(). -/
structure SmallVec (α : Type) (N : Nat) : Type where
  capacity : Nat
  data : SVData α
deriving DecidableEq

variable {α : Type} {N : Nat}

/-- Reading the heap arm of the union; junk when the inline arm is the
active one (debug_unreachable! in the source). -/
def heapBuf : SVData α → List (Option α)
  | .heap b _ => b
  | .inline _ => []

/-- Length stored in the heap arm; junk when inline is active. -/
def heapLen : SVData α → Nat
  | .heap _ l => l
  | .inline _ => 0

/-- Reading the inline arm of the union; junk when heap is active. -/
def inlineBuf : SVData α → List (Option α)
  | .inline b => b
  | .heap _ _ => []

/-- SmallVec::spilled: the data lives in a separate heap allocation. -/
def spilled (v : SmallVec α N) : Prop := N < v.capacity

instance (v : SmallVec α N) : Decidable (spilled v) := Nat.decLt _ _

/-- The data pointer of SmallVec::triple, as the buffer it points to. -/
def bufV (v : SmallVec α N) : List (Option α) :=
  if N < v.capacity then heapBuf v.data else inlineBuf v.data

/-- The length component of SmallVec::triple (SmallVec::len). -/
def lenV (v : SmallVec α N) : Nat :=
  if N < v.capacity then heapLen v.data else v.capacity

/-- The capacity component of SmallVec::triple (SmallVec::capacity). -/
def capV (v : SmallVec α N) : Nat :=
  if N < v.capacity then v.capacity else N

/-- Writing through the length pointer of SmallVec::triple_mut
(SmallVec::set_len). -/
def setLen (v : SmallVec α N) (n : Nat) : SmallVec α N :=
  if N < v.capacity then ⟨v.capacity, .heap (heapBuf v.data) n⟩ else ⟨n, v.data⟩

/-- Replacing the contents of the active buffer (the effect of raw
writes through the data pointer of triple_mut). -/
def setBuf (v : SmallVec α N) (b : List (Option α)) : SmallVec α N :=
  if N < v.capacity then ⟨v.capacity, .heap b (heapLen v.data)⟩
  else ⟨v.capacity, .inline b⟩

/-- The live element slots: the first len slots of the active buffer. -/
def elemsOpt (v : SmallVec α N) : List (Option α) := (bufV v).take (lenV v)

/-- ptr::copy of n slots from offset src to offset dst inside one
buffer (memmove semantics: all reads happen from the original buffer).
Writes that fall outside the buffer are dropped, mirroring that the
source never performs them on a well-formed container. -/
def memCopy (b : List (Option α)) (src dst : Nat) : Nat → List (Option α)
  | 0 => b
  | n + 1 => (memCopy b src dst n).set (dst + n) (b.getD (src + n) none)

/-- ptr::copy_nonoverlapping of n slots from the start of buffer src to
the start of buffer dst (the form used by grow and shrink_to_fit). -/
def copyFront (src dst : List (Option α)) : Nat → List (Option α)
  | 0 => dst
  | n + 1 => (copyFront src dst n).set n (src.getD n none)

/-- SmallVec::new: empty, inline, capacity (= length) zero; the inline
bytes start uninitialized. -/
def newSV (α : Type) (N : Nat) : SmallVec α N :=
  ⟨0, .inline (List.replicate N none)⟩

/-- SmallVec::grow (src/lib.rs lines 718-742).  The error value models
the assert!(new_cap >= len) panic.  Deallocation of the replaced heap
buffer is not tracked; note that when the vector is spilled and newCap
equals the current capacity, the source falls through to
deallocate(ptr, cap) and frees the live buffer while keeping it. -/
def grow (v : SmallVec α N) (newCap : Nat) : Except (SmallVec α N) (SmallVec α N) :=
  let len := lenV v
  let cap := capV v
  if len ≤ newCap then
    if newCap ≤ N then
      if N < v.capacity then
        -- copy the live elements into fresh inline storage and release
        -- the heap buffer; the source leaves the capacity field (the
        -- discriminant) unchanged here (src/lib.rs lines 727-728)
        .ok ⟨v.capacity, .inline (copyFront (bufV v) (List.replicate N none) len)⟩
      else .ok v
    else if newCap ≠ cap then
      -- Vec::with_capacity(newCap) gives a fresh uninitialized buffer
      .ok ⟨newCap, .heap (copyFront (bufV v) (List.replicate newCap none) len) len⟩
    else .ok v
  else .error v

/-- SmallVec::reserve (src/lib.rs lines 751-763). -/
def reserve (v : SmallVec α N) (additional : Nat) : Except (SmallVec α N) (SmallVec α N) :=
  let len := lenV v
  let cap := capV v
  if cap - len < additional then
    grow v (rTarget len additional)
  else .ok v

/-- SmallVec::reserve_exact (src/lib.rs lines 768-776); the overflow
panic leaves the container unchanged. -/
def reserve_exact (v : SmallVec α N) (additional : Nat) : Except (SmallVec α N) (SmallVec α N) :=
  let len := lenV v
  let cap := capV v
  if cap - len < additional then
    match checkedAdd len additional with
    | some c => grow v c
    | none => .error v
  else .ok v

/-- SmallVec::shrink_to_fit (src/lib.rs lines 782-798). -/
def shrink_to_fit (v : SmallVec α N) : Except (SmallVec α N) (SmallVec α N) :=
  if N < v.capacity then
    let len := lenV v
    if len ≤ N then
      -- copy the heap elements into fresh inline storage, free the heap
      -- buffer, and set the capacity field to the length
      .ok ⟨heapLen v.data, .inline (copyFront (heapBuf v.data) (List.replicate N none) (heapLen v.data))⟩
    else if len < capV v then grow v len
    else .ok v
  else .ok v

/-- SmallVec::push (src/lib.rs lines 633-644): len and cap are read
once before the possible reserve, exactly as the source does. -/
def push (v : SmallVec α N) (x : α) : Except (SmallVec α N) (SmallVec α N) := do
  let len := lenV v
  let cap := capV v
  let v₁ ← if len = cap then reserve v 1 else pure v
  pure (setLen (setBuf v₁ ((bufV v₁).set len (some x))) (len + 1))

/-- SmallVec::pop (src/lib.rs lines 701-713): the element in the
vacated slot is read out after the length is decremented. -/
def pop (v : SmallVec α N) : Option α × SmallVec α N :=
  let len := lenV v
  if len = 0 then (none, v)
  else ((bufV v).getD (len - 1) none, setLen v (len - 1))

/-- SmallVec::insert (src/lib.rs lines 870-882): reserve runs first,
then the index is checked against the (unchanged) length; on an
out-of-bounds index the panic leaves the post-reserve state. -/
def insert (v : SmallVec α N) (index : Nat) (x : α) : Except (SmallVec α N) (SmallVec α N) := do
  let v₁ ← reserve v 1
  let len := lenV v₁
  if index ≤ len then
    pure (setLen (setBuf v₁ (((memCopy (bufV v₁) index (index + 1) (len - index)).set index (some x)))) (len + 1))
  else .error v₁

/-- SmallVec::remove (src/lib.rs lines 854-865): the removed slot is
read before the tail is shifted left. -/
def remove (v : SmallVec α N) (index : Nat) : Except (SmallVec α N) (Option α × SmallVec α N) :=
  let len := lenV v
  if index < len then
    .ok ((bufV v).getD index none,
      setLen (setBuf v (memCopy (bufV v) (index + 1) index (len - index - 1))) (len - 1))
  else .error v

/-- Successive ptr::write of the given values starting at slot start
(the first phase of Extend::extend). -/
def writeSeq (b : List (Option α)) (start : Nat) : List α → List (Option α)
  | [] => b
  | x :: xs => writeSeq (b.set start (some x)) (start + 1) xs

/-- Extend::extend for SmallVec (src/lib.rs lines 1417-1440).  The
iterator is modelled as the list of elements it will yield together
with the lower bound of its size hint: the first phase writes
min hint (number of elements) values directly, the rest are pushed. -/
def extendSV (v : SmallVec α N) (elems : List α) (hint : Nat) : Except (SmallVec α N) (SmallVec α N) := do
  let v₁ ← reserve v hint
  let len := lenV v₁
  let count := min hint elems.length
  let v₂ := setLen (setBuf v₁ (writeSeq (bufV v₁) len (elems.take count))) (len + count)
  (elems.drop count).foldlM push v₂

/-- The element loop of SmallVec::insert_many: numAdded counts the
elements written so far; once it reaches the size-hint lower bound the
source reserves one more slot and shifts the trailing block right by
one before each further write. -/
def insertManyGo (idx oldLen lower : Nat) :
    List α → SmallVec α N → Nat → Except (SmallVec α N) (SmallVec α N × Nat)
  | [], v, numAdded => .ok (v, numAdded)
  | e :: rest, v, numAdded => do
    let v₁ ← if lower ≤ numAdded then do
        let w ← reserve v 1
        pure (setBuf w (memCopy (bufV w) (idx + numAdded) (idx + numAdded + 1) (oldLen - idx)))
      else pure v
    insertManyGo idx oldLen lower rest (setBuf v₁ ((bufV v₁).set (idx + numAdded) (some e))) (numAdded + 1)

/-- SmallVec::insert_many (src/lib.rs lines 886-928).  The iterable is
modelled as the element list it yields plus the lower bound of its
size hint.  The assert!(index + lower_size_bound >= index) wraparound
guard cannot fire on Nat and is omitted. -/
def insert_many (v : SmallVec α N) (index : Nat) (elems : List α) (hint : Nat) :
    Except (SmallVec α N) (SmallVec α N) :=
  if index = lenV v then extendSV v elems hint
  else do
    let lower := hint
    let v₀ ← if lower ≤ isizeMax then pure v else .error v
    let v₁ ← reserve v₀ lower
    let oldLen := lenV v₁
    let v₂ ← if index ≤ oldLen then pure v₁ else .error v₁
    -- move the trailing elements, then provisionally truncate the
    -- length to index so a panicking iterator cannot cause double drops
    let v₃ := setLen (setBuf v₂ (memCopy (bufV v₂) index (index + lower) (oldLen - index))) index
    let r ← insertManyGo index oldLen lower elems v₃ 0
    let v₅ := if r.2 < lower
      then setBuf r.1 (memCopy (bufV r.1) (index + lower) (index + r.2) (oldLen - index))
      else r.1
    pure (setLen v₅ (oldLen + r.2))

/-- The live slots of the ok result, none for a panic: used to state
concrete evaluations without a DecidableEq instance for Except. -/
def okElems (r : Except (SmallVec α N) (SmallVec α N)) : Option (List (Option α)) :=
  match r with
  | .ok v => some (elemsOpt v)
  | .error _ => none

/-- The state a panicking call leaves behind, none for a normal return:
used to state concrete evaluations of panic paths. -/
def errState (r : Except (SmallVec α N) (SmallVec α N)) : Option (SmallVec α N) :=
  match r with
  | .ok _ => none
  | .error v => some v

/-- Which union arm is physically active. -/
def isHeap : SVData α → Bool
  | .heap _ _ => true
  | .inline _ => false

/-- Invariant I1 of the spec: the capacity field is ≤ the inline
capacity exactly when the Inline variant is active (and > it exactly
when the Heap variant is active). -/
def I1 (v : SmallVec α N) : Prop := v.capacity ≤ N ↔ isHeap v.data = false

/-- Structural well-formedness: the discriminant agrees with the active
variant, the active buffer has exactly capacity slots, and the
capacity is representable. -/
def Shape (v : SmallVec α N) : Prop :=
  (spilled v ↔ isHeap v.data = true) ∧ (bufV v).length = capV v ∧ capV v ≤ usizeMax

/-- Full well-formedness of a reachable container: shape plus the
length never exceeding the capacity. -/
def WF (v : SmallVec α N) : Prop := Shape v ∧ lenV v ≤ capV v

instance (v : SmallVec α N) : Decidable (I1 v) :=
  inferInstanceAs (Decidable (v.capacity ≤ N ↔ isHeap v.data = false))

instance (v : SmallVec α N) : Decidable (Shape v) :=
  inferInstanceAs (Decidable ((spilled v ↔ isHeap v.data = true) ∧
    (bufV v).length = capV v ∧ capV v ≤ usizeMax))

instance (v : SmallVec α N) : Decidable (WF v) :=
  inferInstanceAs (Decidable (Shape v ∧ lenV v ≤ capV v))

/-- Repeated SmallVec::push of the same value, starting from the empty
container: the sequence of operations of testable property one. -/
def pushRep (x : α) : Nat → Except (SmallVec α N) (SmallVec α N)
  | 0 => .ok (newSV α N)
  | k + 1 => (pushRep x k).bind (fun v => push v x)

/-- Inductive invariant for repeated pushes: the state after k pushes.
It is weaker than WF only in allowing the length to overtake a
capacity that has saturated at the maximum usize value. -/
def PushOk (k : Nat) (v : SmallVec α N) : Prop :=
  (spilled v ↔ isHeap v.data = true) ∧ (bufV v).length = capV v ∧
  capV v ≤ usizeMax ∧ lenV v = k ∧ (spilled v ↔ N < k) ∧
  (k ≤ capV v ∨ capV v = usizeMax)

/-! Buffer-level lemmas: slot contents after set, memCopy, copyFront. -/

lemma getD_set (l : List (Option α)) (i j : Nat) (a : Option α) :
    (l.set i a).getD j none = if i = j ∧ i < l.length then a else l.getD j none := by
  rw [List.getD_eq_getElem?_getD, List.getD_eq_getElem?_getD, List.getElem?_set]
  by_cases hij : i = j
  · subst hij
    by_cases hi : i < l.length
    · simp [hi]
    · simp [hi, List.getElem?_eq_none (Nat.le_of_not_lt hi)]
  · simp [hij]

lemma getD_oob (l : List (Option α)) (j : Nat) (h : l.length ≤ j) : l.getD j none = none := by
  rw [List.getD_eq_getElem?_getD, List.getElem?_eq_none h]
  rfl

lemma length_memCopy (b : List (Option α)) (s d n : Nat) :
    (memCopy b s d n).length = b.length := by
  induction n with
  | zero => rfl
  | succ n ih => rw [memCopy, List.length_set, ih]

lemma getD_memCopy (b : List (Option α)) (s d n j : Nat) :
    (memCopy b s d n).getD j none =
      if d ≤ j ∧ j < d + n ∧ j < b.length then b.getD (s + (j - d)) none
      else b.getD j none := by
  induction n with
  | zero =>
    have : ¬(d ≤ j ∧ j < d + 0 ∧ j < b.length) := by omega
    rw [memCopy, if_neg this]
  | succ n ih =>
    rw [memCopy, getD_set, length_memCopy, ih]
    by_cases h1 : d + n = j ∧ d + n < b.length
    · obtain ⟨h1, h2⟩ := h1
      rw [if_pos ⟨h1, h2⟩, if_pos (by omega)]
      have : s + (j - d) = s + n := by omega
      rw [this]
    · rw [if_neg h1]
      by_cases h2 : d ≤ j ∧ j < d + n ∧ j < b.length
      · rw [if_pos h2, if_pos (by omega)]
      · rw [if_neg h2, if_neg (by omega)]

lemma length_copyFront (s t : List (Option α)) (n : Nat) :
    (copyFront s t n).length = t.length := by
  induction n with
  | zero => rfl
  | succ n ih => rw [copyFront, List.length_set, ih]

lemma getD_copyFront (s t : List (Option α)) (n j : Nat) :
    (copyFront s t n).getD j none =
      if j < n ∧ j < t.length then s.getD j none else t.getD j none := by
  induction n with
  | zero =>
    have : ¬(j < 0 ∧ j < t.length) := by omega
    rw [copyFront, if_neg this]
  | succ n ih =>
    rw [copyFront, getD_set, length_copyFront, ih]
    by_cases h1 : n = j ∧ n < t.length
    · obtain ⟨h1, h2⟩ := h1
      rw [if_pos ⟨h1, h2⟩, if_pos (show j < n + 1 ∧ j < t.length by omega), h1]
    · rw [if_neg h1]
      by_cases h2 : j < n ∧ j < t.length
      · rw [if_pos h2, if_pos (by omega)]
      · rw [if_neg h2, if_neg (by omega)]

lemma getD_take (l : List (Option α)) (m j : Nat) (h : j < m) :
    (l.take m).getD j none = l.getD j none := by
  rw [List.getD_eq_getElem?_getD, List.getD_eq_getElem?_getD, List.getElem?_take, if_pos h]

lemma take_ext (l₁ l₂ : List (Option α)) (m : Nat)
    (h₁ : m ≤ l₁.length) (h₂ : m ≤ l₂.length)
    (h : ∀ j, j < m → l₁.getD j none = l₂.getD j none) :
    l₁.take m = l₂.take m := by
  apply List.ext_getElem?
  intro j
  rw [List.getElem?_take, List.getElem?_take]
  by_cases hj : j < m
  · rw [if_pos hj, if_pos hj]
    have e := h j hj
    rw [List.getD_eq_getElem _ _ (lt_of_lt_of_le hj h₁),
        List.getD_eq_getElem _ _ (lt_of_lt_of_le hj h₂)] at e
    rw [List.getElem?_eq_getElem (lt_of_lt_of_le hj h₁),
        List.getElem?_eq_getElem (lt_of_lt_of_le hj h₂), e]
  · rw [if_neg hj, if_neg hj]

lemma take_copyFront (s t : List (Option α)) (n : Nat)
    (hs : n ≤ s.length) (ht : n ≤ t.length) :
    (copyFront s t n).take n = s.take n := by
  apply take_ext
  · rw [length_copyFront]; exact ht
  · exact hs
  · intro j hj
    rw [getD_copyFront, if_pos ⟨hj, lt_of_lt_of_le hj ht⟩]

lemma getD_map_some (s : List α) (j : Nat) : (s.map some).getD j none = s[j]? := by
  rw [List.getD_eq_getElem?_getD, List.getElem?_map]
  cases s[j]? <;> rfl

/-! Accessor lemmas for the SmallVec state. -/

lemma le_capV (v : SmallVec α N) : N ≤ capV v := by
  unfold capV
  split
  · omega
  · exact Nat.le_refl _

lemma capV_of_spilled (v : SmallVec α N) (h : N < v.capacity) : capV v = v.capacity := by
  rw [capV, if_pos h]

lemma capV_of_inline (v : SmallVec α N) (h : ¬N < v.capacity) : capV v = N := by
  rw [capV, if_neg h]

lemma length_elemsOpt (v : SmallVec α N) (h : lenV v ≤ (bufV v).length) :
    (elemsOpt v).length = lenV v := by
  rw [elemsOpt, List.length_take]
  omega

@[simp] lemma capacity_setBuf (v : SmallVec α N) (b : List (Option α)) :
    (setBuf v b).capacity = v.capacity := by
  unfold setBuf
  split <;> rfl

@[simp] lemma bufV_setBuf (v : SmallVec α N) (b : List (Option α)) :
    bufV (setBuf v b) = b := by
  by_cases h : N < v.capacity <;> simp [setBuf, bufV, heapBuf, inlineBuf, h]

@[simp] lemma lenV_setBuf (v : SmallVec α N) (b : List (Option α)) :
    lenV (setBuf v b) = lenV v := by
  by_cases h : N < v.capacity <;> simp [setBuf, lenV, heapLen, h]

@[simp] lemma capV_setBuf (v : SmallVec α N) (b : List (Option α)) :
    capV (setBuf v b) = capV v := by
  by_cases h : N < v.capacity <;> simp [setBuf, capV, h]

lemma capacity_setLen_spilled (v : SmallVec α N) (n : Nat) (h : N < v.capacity) :
    (setLen v n).capacity = v.capacity := by
  simp [setLen, h]

lemma lenV_setLen_spilled (v : SmallVec α N) (n : Nat) (h : N < v.capacity) :
    lenV (setLen v n) = n := by
  simp [setLen, lenV, heapLen, h]

lemma bufV_setLen_spilled (v : SmallVec α N) (n : Nat) (h : N < v.capacity) :
    bufV (setLen v n) = bufV v := by
  simp [setLen, bufV, heapBuf, h]

lemma capV_setLen_spilled (v : SmallVec α N) (n : Nat) (h : N < v.capacity) :
    capV (setLen v n) = capV v := by
  simp [setLen, capV, h]

lemma setLen_inline_def (v : SmallVec α N) (n : Nat) (h : ¬N < v.capacity) :
    setLen v n = ⟨n, v.data⟩ := by
  rw [setLen, if_neg h]

lemma setLen_spilled_def (v : SmallVec α N) (n : Nat) (h : N < v.capacity) :
    setLen v n = ⟨v.capacity, .heap (heapBuf v.data) n⟩ := by
  rw [setLen, if_pos h]

lemma setBuf_spilled_def (v : SmallVec α N) (b : List (Option α)) (h : N < v.capacity) :
    setBuf v b = ⟨v.capacity, .heap b (heapLen v.data)⟩ := by
  rw [setBuf, if_pos h]

lemma setBuf_inline_def (v : SmallVec α N) (b : List (Option α)) (h : ¬N < v.capacity) :
    setBuf v b = ⟨v.capacity, .inline b⟩ := by
  rw [setBuf, if_neg h]

lemma bufV_mk_heap (c : Nat) (b : List (Option α)) (l : Nat) (h : N < c) :
    bufV (⟨c, .heap b l⟩ : SmallVec α N) = b := by
  rw [bufV, if_pos h]; rfl

lemma lenV_mk_heap (c : Nat) (b : List (Option α)) (l : Nat) (h : N < c) :
    lenV (⟨c, .heap b l⟩ : SmallVec α N) = l := by
  rw [lenV, if_pos h]; rfl

lemma capV_mk_heap (c : Nat) (b : List (Option α)) (l : Nat) (h : N < c) :
    capV (⟨c, .heap b l⟩ : SmallVec α N) = c := by
  rw [capV, if_pos h]

lemma bufV_mk_inline (c : Nat) (b : List (Option α)) (h : ¬N < c) :
    bufV (⟨c, .inline b⟩ : SmallVec α N) = b := by
  rw [bufV, if_neg h]; rfl

lemma lenV_mk_inline (c : Nat) (b : List (Option α)) (h : ¬N < c) :
    lenV (⟨c, .inline b⟩ : SmallVec α N) = c := by
  rw [lenV, if_neg h]

lemma capV_mk_inline (c : Nat) (b : List (Option α)) (h : ¬N < c) :
    capV (⟨c, .inline b⟩ : SmallVec α N) = N := by
  rw [capV, if_neg h]

lemma lenV_setLen_inline (v : SmallVec α N) (n : Nat) (h : ¬N < v.capacity) (hn : ¬N < n) :
    lenV (setLen v n) = n := by
  rw [setLen_inline_def v n h, lenV, if_neg hn]

lemma bufV_setLen_inline (v : SmallVec α N) (n : Nat) (h : ¬N < v.capacity) (hn : ¬N < n) :
    bufV (setLen v n) = bufV v := by
  rw [setLen_inline_def v n h, bufV, if_neg hn, bufV, if_neg h]

lemma capV_setLen_inline (v : SmallVec α N) (n : Nat) (h : ¬N < v.capacity) (hn : ¬N < n) :
    capV (setLen v n) = capV v := by
  rw [setLen_inline_def v n h, capV, if_neg hn, capV, if_neg h]

/-! Arithmetic lemmas about the growth target. -/

lemma le_np2go (fuel n : Nat) (h : n ≤ fuel) : n ≤ np2go fuel n := by
  induction fuel generalizing n with
  | zero => rw [np2go]; omega
  | succ fuel ih =>
    rw [np2go]
    by_cases h2 : 2 ≤ n
    · rw [if_pos h2]
      have hf : (n + 1) / 2 ≤ fuel := by omega
      have := ih ((n + 1) / 2) hf
      omega
    · rw [if_neg h2]; omega

lemma le_nextPow2 (n : Nat) : n ≤ nextPow2 n := le_np2go n n (Nat.le_refl n)

lemma rTarget_le_usizeMax (len additional : Nat) : rTarget len additional ≤ usizeMax := by
  rw [rTarget, checkedAdd]
  by_cases h1 : len + additional ≤ usizeMax
  · rw [if_pos h1]
    show (checkedNextPow2 (len + additional)).getD usizeMax ≤ usizeMax
    rw [checkedNextPow2]
    by_cases h2 : nextPow2 (len + additional) ≤ usizeMax
    · rw [if_pos h2]; exact h2
    · rw [if_neg h2]; exact Nat.le_refl _
  · rw [if_neg h1]
    exact Nat.le_refl _

lemma rTarget_eq (len additional : Nat) :
    rTarget len additional =
      if len + additional ≤ usizeMax ∧ nextPow2 (len + additional) ≤ usizeMax
      then nextPow2 (len + additional) else usizeMax := by
  rw [rTarget, checkedAdd]
  by_cases h1 : len + additional ≤ usizeMax
  · rw [if_pos h1]
    show (checkedNextPow2 (len + additional)).getD usizeMax =
      if len + additional ≤ usizeMax ∧ nextPow2 (len + additional) ≤ usizeMax
      then nextPow2 (len + additional) else usizeMax
    rw [checkedNextPow2]
    by_cases h2 : nextPow2 (len + additional) ≤ usizeMax
    · rw [if_pos h2, if_pos ⟨h1, h2⟩]; rfl
    · rw [if_neg h2, if_neg (by tauto)]; rfl
  · rw [if_neg h1, if_neg (by tauto)]; rfl

lemma le_rTarget (len additional : Nat) (h : len ≤ usizeMax) :
    len ≤ rTarget len additional := by
  rw [rTarget_eq]
  split
  · exact le_trans (Nat.le_add_right _ _) (le_nextPow2 _)
  · exact h

lemma add_le_rTarget (len additional : Nat) (h : len + additional ≤ usizeMax) :
    len + additional ≤ rTarget len additional := by
  rw [rTarget_eq]
  split
  · exact le_nextPow2 _
  · exact h

/-! Specifications of the growth engine. -/

lemma WF.shape {v : SmallVec α N} (h : WF v) : Shape v := h.1

lemma WF.bufLen {v : SmallVec α N} (h : WF v) : (bufV v).length = capV v := h.1.2.1

lemma WF.len_le {v : SmallVec α N} (h : WF v) : lenV v ≤ capV v := h.2

lemma WF.cap_le {v : SmallVec α N} (h : WF v) : capV v ≤ usizeMax := h.1.2.2

lemma spilled_of_capV_gt {v : SmallVec α N} (h : N < capV v) : N < v.capacity := by
  by_contra hc
  rw [capV_of_inline v hc] at h
  omega

/-- Specification of SmallVec::grow for a target capacity above the
inline capacity: the result is spilled with exactly the requested
capacity and the live elements are unchanged. -/
lemma grow_spec (v : SmallVec α N) (newCap : Nat) (hwf : WF v)
    (hlen : lenV v ≤ newCap) (hN : N < newCap) (hmax : newCap ≤ usizeMax) :
    ∃ v', grow v newCap = .ok v' ∧ WF v' ∧ lenV v' = lenV v ∧ capV v' = newCap ∧
      spilled v' ∧ elemsOpt v' = elemsOpt v := by
  rw [grow]
  simp only [if_pos hlen, if_neg (by omega : ¬newCap ≤ N)]
  by_cases hc : newCap = capV v
  · rw [if_neg (by simpa using hc)]
    have hsp : N < v.capacity := spilled_of_capV_gt (by omega)
    refine ⟨v, rfl, hwf, rfl, hc.symm, hsp, rfl⟩
  · rw [if_pos (by simpa using hc)]
    set b := copyFront (bufV v) (List.replicate newCap none) (lenV v) with hb
    have hsp : N < newCap := hN
    have hlenb : b.length = newCap := by
      rw [hb, length_copyFront, List.length_replicate]
    have e1 : bufV (⟨newCap, .heap b (lenV v)⟩ : SmallVec α N) = b := by
      simp [bufV, heapBuf, hsp]
    have e2 : lenV (⟨newCap, .heap b (lenV v)⟩ : SmallVec α N) = lenV v := by
      simp [lenV, heapLen, hsp]
    have e3 : capV (⟨newCap, .heap b (lenV v)⟩ : SmallVec α N) = newCap := by
      simp [capV, hsp]
    refine ⟨⟨newCap, .heap b (lenV v)⟩, rfl, ⟨⟨?_, ?_, ?_⟩, ?_⟩, e2, e3, hsp, ?_⟩
    · simp [spilled, isHeap, hsp]
    · rw [e1, e3, hlenb]
    · rw [e3]; exact hmax
    · rw [e2, e3]; exact hlen
    · rw [elemsOpt, elemsOpt, e1, e2, hb]
      exact take_copyFront _ _ _ (by rw [hwf.bufLen]; exact hwf.len_le)
        (by rw [List.length_replicate]; exact hlen)

/-- Specification of SmallVec::reserve: no change unless the spare
capacity is short, in which case the capacity becomes the saturated
next-power-of-two target and the container is spilled; length and live
elements are always preserved. -/
lemma reserve_spec (v : SmallVec α N) (additional : Nat) (hwf : WF v) (hN : N < usizeMax) :
    ∃ v', reserve v additional = .ok v' ∧ WF v' ∧ lenV v' = lenV v ∧
      elemsOpt v' = elemsOpt v ∧ capV v ≤ capV v' ∧
      (capV v - lenV v < additional → capV v' = rTarget (lenV v) additional ∧ spilled v') ∧
      (¬capV v - lenV v < additional → v' = v) ∧
      (lenV v + additional ≤ usizeMax → lenV v + additional ≤ capV v') := by
  rw [reserve]
  by_cases ht : capV v - lenV v < additional
  · rw [if_pos ht]
    have hlmax : lenV v ≤ usizeMax := le_trans hwf.len_le hwf.cap_le
    have hcl : capV v < lenV v + additional := by
      have := hwf.len_le
      omega
    have hNr : N < rTarget (lenV v) additional := by
      rw [rTarget_eq]
      split
      · exact lt_of_le_of_lt (le_capV v) (lt_of_lt_of_le hcl (le_nextPow2 _))
      · exact hN
    obtain ⟨v', e, hwf', hl, hc, hsp, he⟩ :=
      grow_spec v (rTarget (lenV v) additional) hwf
        (le_rTarget _ _ hlmax) hNr (rTarget_le_usizeMax _ _)
    refine ⟨v', e, hwf', hl, he, ?_, fun _ => ⟨hc, hsp⟩, fun hcon => absurd ht hcon, ?_⟩
    · rw [hc]
      rw [rTarget_eq]
      split
      · exact le_trans (le_of_lt hcl) (le_nextPow2 _)
      · exact hwf.cap_le
    · intro hadd
      rw [hc]
      exact add_le_rTarget _ _ hadd
  · rw [if_neg ht]
    refine ⟨v, rfl, hwf, rfl, rfl, Nat.le_refl _, fun hcon => absurd hcon ht, fun _ => rfl, ?_⟩
    intro _
    have := hwf.len_le
    omega

/-! Claim theorems. -/

/-- C1: counter-evidence.  grow with new capacity 2 (the inline capacity)
on a spilled container of length 2 copies the live elements into inline
storage and releases the heap buffer, but leaves the discriminant field
at the old heap capacity 4 instead of switching it to the length 2, so
the container is not in the Inline state afterwards: spilled still
reports true while the Inline variant is active.  This contradicts both
the claim and the doc comment of grow in the source. -/
theorem c1_grow_to_inline_keeps_stale_discriminant :
    lenV (⟨4, .heap [some 1, some 2, none, none] 2⟩ : SmallVec Nat 2) = 2 ∧
    (grow (⟨4, .heap [some 1, some 2, none, none] 2⟩ : SmallVec Nat 2) 2).toOption
      = some ⟨4, .inline [some 1, some 2]⟩ ∧
    spilled (⟨4, .inline [some 1, some 2]⟩ : SmallVec Nat 2) ∧
    (⟨4, .inline [some 1, some 2]⟩ : SmallVec Nat 2).capacity ≠ 2 := by
  decide

/-- C2: counter-evidence.  The public operation grow breaks invariant I1:
from a well-formed container satisfying I1 (capacity field 4 > inline
capacity 2 with the Heap variant active), grow 2 yields a state whose
capacity field still exceeds the inline capacity while the Inline
variant is active, so the discriminant and the active variant are
inconsistent. -/
theorem c2_grow_violates_I1 :
    I1 (⟨4, .heap [some 1, some 2, none, none] 2⟩ : SmallVec Nat 2) ∧
    WF (⟨4, .heap [some 1, some 2, none, none] 2⟩ : SmallVec Nat 2) ∧
    (grow (⟨4, .heap [some 1, some 2, none, none] 2⟩ : SmallVec Nat 2) 2).toOption
      = some ⟨4, .inline [some 1, some 2]⟩ ∧
    ¬I1 (⟨4, .inline [some 1, some 2]⟩ : SmallVec Nat 2) := by
  decide

/-- C4: reserve changes the capacity only when capacity - length <
additional, and in that case the new capacity is
next_power_of_two(length + additional), saturating to the maximum usize
value when the sum or its next power of two is not representable. -/
theorem c4_reserve_capacity (v : SmallVec α N) (additional : Nat)
    (hwf : WF v) (hN : N < usizeMax) :
    (¬capV v - lenV v < additional → reserve v additional = .ok v) ∧
    (capV v - lenV v < additional → ∃ v', reserve v additional = .ok v' ∧
      capV v' = (if lenV v + additional ≤ usizeMax ∧
          nextPow2 (lenV v + additional) ≤ usizeMax
        then nextPow2 (lenV v + additional) else usizeMax)) := by
  obtain ⟨v', e, hwf', hl, he, hc, htrig, hntrig, hadd⟩ := reserve_spec v additional hwf hN
  constructor
  · intro h
    rw [e, hntrig h]
  · intro h
    exact ⟨v', e, by rw [(htrig h).1, rTarget_eq]⟩

/-- C4 witness: the empty container with inline capacity 2; reserving 3
slots triggers growth to next_power_of_two(0 + 3) = 4. -/
theorem c4_reserve_capacity_witness :
    (WF (newSV Nat 2) ∧ 2 < usizeMax) ∧
    ((¬capV (newSV Nat 2) - lenV (newSV Nat 2) < 3 →
        reserve (newSV Nat 2) 3 = .ok (newSV Nat 2)) ∧
     (capV (newSV Nat 2) - lenV (newSV Nat 2) < 3 →
        ∃ v', reserve (newSV Nat 2) 3 = .ok v' ∧
          capV v' = (if lenV (newSV Nat 2) + 3 ≤ usizeMax ∧
              nextPow2 (lenV (newSV Nat 2) + 3) ≤ usizeMax
            then nextPow2 (lenV (newSV Nat 2) + 3) else usizeMax))) :=
  ⟨⟨by decide, by decide⟩, c4_reserve_capacity (newSV Nat 2) 3 (by decide) (by decide)⟩

/-- C5: reserve_exact changes the capacity only when capacity - length <
additional; in that case, if length + additional is representable the
container is grown to capacity exactly max(length + additional,
inline_capacity), and on overflow the operation panics (error state
unchanged) instead of saturating. -/
theorem c5_reserve_exact_capacity (v : SmallVec α N) (additional : Nat)
    (hwf : WF v) :
    (¬capV v - lenV v < additional → reserve_exact v additional = .ok v) ∧
    (capV v - lenV v < additional → lenV v + additional ≤ usizeMax →
      ∃ v', reserve_exact v additional = .ok v' ∧
        capV v' = max (lenV v + additional) N) ∧
    (capV v - lenV v < additional → usizeMax < lenV v + additional →
      reserve_exact v additional = .error v) := by
  refine ⟨?_, ?_, ?_⟩
  · intro h
    rw [reserve_exact, if_neg h]
  · intro h hle
    rw [reserve_exact, if_pos h, checkedAdd, if_pos hle]
    have hcl : capV v < lenV v + additional := by
      have := hwf.len_le
      omega
    have hNlt : N < lenV v + additional := lt_of_le_of_lt (le_capV v) hcl
    obtain ⟨v', e, hwf', hl, hc, hsp, he⟩ :=
      grow_spec v (lenV v + additional) hwf (Nat.le_add_right _ _) hNlt hle
    exact ⟨v', e, by rw [hc]; omega⟩
  · intro h hgt
    rw [reserve_exact, if_pos h, checkedAdd, if_neg (by omega)]

/-- C5 witness: a full inline container with inline capacity 2 and
length 2; reserve_exact 1 grows to capacity exactly 3. -/
theorem c5_reserve_exact_capacity_witness :
    WF (⟨2, .inline [some 1, some 2]⟩ : SmallVec Nat 2) ∧
    ((¬capV (⟨2, .inline [some 1, some 2]⟩ : SmallVec Nat 2) -
        lenV (⟨2, .inline [some 1, some 2]⟩ : SmallVec Nat 2) < 1 →
        reserve_exact (⟨2, .inline [some 1, some 2]⟩ : SmallVec Nat 2) 1 =
          .ok ⟨2, .inline [some 1, some 2]⟩) ∧
     (capV (⟨2, .inline [some 1, some 2]⟩ : SmallVec Nat 2) -
        lenV (⟨2, .inline [some 1, some 2]⟩ : SmallVec Nat 2) < 1 →
        lenV (⟨2, .inline [some 1, some 2]⟩ : SmallVec Nat 2) + 1 ≤ usizeMax →
        ∃ v', reserve_exact (⟨2, .inline [some 1, some 2]⟩ : SmallVec Nat 2) 1 = .ok v' ∧
          capV v' = max (lenV (⟨2, .inline [some 1, some 2]⟩ : SmallVec Nat 2) + 1) 2) ∧
     (capV (⟨2, .inline [some 1, some 2]⟩ : SmallVec Nat 2) -
        lenV (⟨2, .inline [some 1, some 2]⟩ : SmallVec Nat 2) < 1 →
        usizeMax < lenV (⟨2, .inline [some 1, some 2]⟩ : SmallVec Nat 2) + 1 →
        reserve_exact (⟨2, .inline [some 1, some 2]⟩ : SmallVec Nat 2) 1 =
          .error ⟨2, .inline [some 1, some 2]⟩)) :=
  ⟨by decide,
    c5_reserve_exact_capacity (⟨2, .inline [some 1, some 2]⟩ : SmallVec Nat 2) 1
      (by decide)⟩

/-- C8: insert_many(1, it) yielding 5 then 6, applied to [0,1,2,3] with
inline capacity 8, results in the element sequence [0,5,6,1,2,3] for an
accurate size hint (lower bound 2), a too-small hint (lower bound 1)
and a too-large hint (lower bound 5). -/
theorem c8_insert_many_size_hints :
    okElems (insert_many
        (⟨4, .inline [some 0, some 1, some 2, some 3, none, none, none, none]⟩ : SmallVec Nat 8)
        1 [5, 6] 2) = some ([0, 5, 6, 1, 2, 3].map some) ∧
    okElems (insert_many
        (⟨4, .inline [some 0, some 1, some 2, some 3, none, none, none, none]⟩ : SmallVec Nat 8)
        1 [5, 6] 1) = some ([0, 5, 6, 1, 2, 3].map some) ∧
    okElems (insert_many
        (⟨4, .inline [some 0, some 1, some 2, some 3, none, none, none, none]⟩ : SmallVec Nat 8)
        1 [5, 6] 5) = some ([0, 5, 6, 1, 2, 3].map some) := by
  decide

/-- One push from a state reachable by pushes: it never panics, the
length grows by one, and the container spills exactly when the length
passes the inline capacity. -/
lemma push_step (v : SmallVec α N) (x : α) (k : Nat) (hN : N < usizeMax)
    (h : PushOk k v) :
    ∃ v', push v x = .ok v' ∧ PushOk (k + 1) v' := by
  obtain ⟨hiso, hbl, hcm, hlen, hspk, hcap⟩ := h
  rw [push]
  by_cases hlc : lenV v = capV v
  · rw [if_pos hlc]
    have hwf : WF v := ⟨⟨hiso, hbl, hcm⟩, le_of_eq hlc⟩
    obtain ⟨v₁, e₁, hwf₁, hl₁, he₁, hcle, htrig, _, haddle⟩ := reserve_spec v 1 hwf hN
    obtain ⟨hc₁, hsp₁⟩ := htrig (by omega)
    have hspc : N < v₁.capacity := hsp₁
    rw [e₁]
    refine ⟨_, rfl, ?_⟩
    have hstate : setLen (setBuf v₁ ((bufV v₁).set (lenV v) (some x))) (lenV v + 1) =
        ⟨v₁.capacity, .heap ((bufV v₁).set (lenV v) (some x)) (lenV v + 1)⟩ := by
      simp [setBuf, setLen, heapBuf, heapLen, hspc]
    rw [hstate]
    have hcV : capV v₁ = v₁.capacity := capV_of_spilled v₁ hspc
    have hNk : N ≤ k := by
      have := le_capV v
      omega
    refine ⟨?_, ?_, ?_, ?_, ?_, ?_⟩
    · simp [spilled, isHeap, hspc]
    · rw [bufV_mk_heap _ _ _ hspc, capV_mk_heap _ _ _ hspc, List.length_set,
        hwf₁.bufLen, hcV]
    · rw [capV_mk_heap _ _ _ hspc]
      have := hwf₁.cap_le
      omega
    · rw [lenV_mk_heap _ _ _ hspc, hlen]
    · simp only [spilled]
      constructor
      · intro _
        omega
      · intro _
        exact hspc
    · rw [capV_mk_heap _ _ _ hspc]
      rcases Nat.lt_or_ge usizeMax (lenV v + 1) with hgt | hle2
      · right
        have hlvm : lenV v = usizeMax := by omega
        have hrt : rTarget (lenV v) 1 = usizeMax := by
          rw [rTarget_eq, if_neg (by omega)]
        omega
      · left
        have := haddle hle2
        omega
  · rw [if_neg hlc]
    refine ⟨_, rfl, ?_⟩
    by_cases hsp : N < v.capacity
    · have hstate : setLen (setBuf v ((bufV v).set (lenV v) (some x))) (lenV v + 1) =
          ⟨v.capacity, .heap ((bufV v).set (lenV v) (some x)) (lenV v + 1)⟩ := by
        simp [setBuf, setLen, heapBuf, heapLen, hsp]
      rw [hstate]
      have hcV : capV v = v.capacity := capV_of_spilled v hsp
      have hNk : N < k := hspk.mp hsp
      refine ⟨?_, ?_, ?_, ?_, ?_, ?_⟩
      · simp [spilled, isHeap, hsp]
      · rw [bufV_mk_heap _ _ _ hsp, capV_mk_heap _ _ _ hsp, List.length_set, hbl, hcV]
      · rw [capV_mk_heap _ _ _ hsp]
        omega
      · rw [lenV_mk_heap _ _ _ hsp, hlen]
      · simp only [spilled]
        constructor
        · intro _
          omega
        · intro _
          exact hsp
      · rw [capV_mk_heap _ _ _ hsp]
        omega
    · have hcV : capV v = N := capV_of_inline v hsp
      have hkN : k < N := by omega
      have hk1 : ¬N < lenV v + 1 := by omega
      have hstate : setLen (setBuf v ((bufV v).set (lenV v) (some x))) (lenV v + 1) =
          ⟨lenV v + 1, .inline ((bufV v).set (lenV v) (some x))⟩ := by
        simp [setBuf, setLen, hsp]
      rw [hstate]
      refine ⟨?_, ?_, ?_, ?_, ?_, ?_⟩
      · simp only [spilled, isHeap]
        constructor
        · intro hcon
          omega
        · intro hcon
          cases hcon
      · rw [bufV_mk_inline _ _ hk1, capV_mk_inline _ _ hk1, List.length_set, hbl, hcV]
      · rw [capV_mk_inline _ _ hk1]
        omega
      · rw [lenV_mk_inline _ _ hk1, hlen]
      · simp only [spilled]
        constructor
        · intro hcon
          omega
        · intro hcon
          omega
      · rw [capV_mk_inline _ _ hk1]
        omega

/-- C3: starting from the empty container, after k pushes the length is
exactly k and the container is spilled exactly when k exceeds the
inline capacity. -/
theorem c3_push_length_and_spill (x : α) (k : Nat) (hN : N < usizeMax) :
    ∃ v : SmallVec α N, pushRep x k = .ok v ∧ lenV v = k ∧ (spilled v ↔ N < k) := by
  suffices h : ∃ v : SmallVec α N, pushRep x k = .ok v ∧ PushOk k v by
    obtain ⟨v, e, hP⟩ := h
    exact ⟨v, e, hP.2.2.2.1, hP.2.2.2.2.1⟩
  induction k with
  | zero =>
    refine ⟨newSV α N, rfl, ?_, ?_, ?_, ?_, ?_, ?_⟩
    · simp [newSV, spilled, isHeap]
    · simp [newSV, bufV, inlineBuf, capV, lenV]
    · simp only [newSV, capV]
      rw [if_neg (by omega)]
      omega
    · simp [newSV, lenV]
    · simp only [newSV, spilled]
    · simp only [newSV, capV]
      rw [if_neg (by omega)]
      omega
  | succ k ih =>
    obtain ⟨v, e, hP⟩ := ih
    obtain ⟨v', e', hP'⟩ := push_step v x k hN hP
    refine ⟨v', ?_, hP'⟩
    rw [pushRep, e]
    exact e'

/-- C3 witness: inline capacity 2, three pushes of the value 7: length 3
and spilled. -/
theorem c3_push_length_and_spill_witness :
    2 < usizeMax ∧
    ∃ v : SmallVec Nat 2, pushRep 7 3 = .ok v ∧ lenV v = 3 ∧ (spilled v ↔ 2 < 3) :=
  ⟨by decide, c3_push_length_and_spill 7 3 (by decide)⟩

lemma ok_bind {ε β γ : Type} (a : β) (f : β → Except ε γ) :
    (Except.ok a >>= f) = f a := rfl

/-- Updating only the length through triple_mut, staying within the
current capacity, preserves well-formedness, the buffer, the capacity
and the spilled state. -/
lemma setLen_spec (v : SmallVec α N) (n : Nat) (hwf : WF v) (hn : n ≤ capV v) :
    WF (setLen v n) ∧ lenV (setLen v n) = n ∧ bufV (setLen v n) = bufV v ∧
    capV (setLen v n) = capV v ∧ (spilled (setLen v n) ↔ spilled v) := by
  by_cases hsp : N < v.capacity
  · have hst : setLen v n = ⟨v.capacity, .heap (heapBuf v.data) n⟩ :=
      setLen_spilled_def v n hsp
    have hbv : bufV v = heapBuf v.data := by rw [bufV, if_pos hsp]
    rw [hst]
    have hcV : capV v = v.capacity := capV_of_spilled v hsp
    refine ⟨⟨⟨?_, ?_, ?_⟩, ?_⟩, ?_, ?_, ?_, ?_⟩
    · simp [spilled, isHeap, hsp]
    · rw [bufV_mk_heap _ _ _ hsp, capV_mk_heap _ _ _ hsp, ← hbv, hwf.bufLen, hcV]
    · rw [capV_mk_heap _ _ _ hsp, ← hcV]
      exact hwf.cap_le
    · rw [lenV_mk_heap _ _ _ hsp, capV_mk_heap _ _ _ hsp]
      omega
    · rw [lenV_mk_heap _ _ _ hsp]
    · rw [bufV_mk_heap _ _ _ hsp, hbv]
    · rw [capV_mk_heap _ _ _ hsp, hcV]
    · simp [spilled, hsp]
  · have hst : setLen v n = ⟨n, v.data⟩ := setLen_inline_def v n hsp
    have hcV : capV v = N := capV_of_inline v hsp
    have hnN : ¬N < n := by omega
    have hdi : isHeap v.data = false := by
      by_contra hcon
      have := hwf.shape.1.mpr (by revert hcon; cases isHeap v.data <;> simp)
      exact hsp this
    have hbv : bufV v = inlineBuf v.data := by rw [bufV, if_neg hsp]
    rw [hst]
    have hbe : bufV (⟨n, v.data⟩ : SmallVec α N) = inlineBuf v.data := by
      rw [bufV, if_neg hnN]
    have hce : capV (⟨n, v.data⟩ : SmallVec α N) = N := by
      rw [capV, if_neg hnN]
    have hle : lenV (⟨n, v.data⟩ : SmallVec α N) = n := by
      rw [lenV, if_neg hnN]
    refine ⟨⟨⟨?_, ?_, ?_⟩, ?_⟩, ?_, ?_, ?_, ?_⟩
    · rw [hdi]
      simp [spilled, hnN]
    · rw [hbe, hce, ← hbv, hwf.bufLen, hcV]
    · rw [hce, ← hcV]
      exact hwf.cap_le
    · rw [hle, hce]
      omega
    · exact hle
    · rw [hbe, hbv]
    · rw [hce, hcV]
    · simp [spilled, hnN, hsp]

/-- Replacing the buffer contents (same physical size) and then setting
a length within the capacity: the combined effect of the raw writes and
the length update of the mutation operations. -/
lemma writeState_spec (v : SmallVec α N) (b : List (Option α)) (n : Nat)
    (hwf : WF v) (hb : b.length = (bufV v).length) (hn : n ≤ capV v) :
    WF (setLen (setBuf v b) n) ∧ lenV (setLen (setBuf v b) n) = n ∧
    bufV (setLen (setBuf v b) n) = b ∧ capV (setLen (setBuf v b) n) = capV v ∧
    (spilled (setLen (setBuf v b) n) ↔ spilled v) := by
  by_cases hsp : N < v.capacity
  · have hst : setLen (setBuf v b) n = ⟨v.capacity, .heap b n⟩ := by
      simp [setBuf, setLen, heapBuf, heapLen, hsp]
    have hbv : bufV v = heapBuf v.data := by rw [bufV, if_pos hsp]
    have hcV : capV v = v.capacity := capV_of_spilled v hsp
    rw [hst]
    refine ⟨⟨⟨?_, ?_, ?_⟩, ?_⟩, ?_, ?_, ?_, ?_⟩
    · simp [spilled, isHeap, hsp]
    · rw [bufV_mk_heap _ _ _ hsp, capV_mk_heap _ _ _ hsp, hb, hwf.bufLen, hcV]
    · rw [capV_mk_heap _ _ _ hsp, ← hcV]
      exact hwf.cap_le
    · rw [lenV_mk_heap _ _ _ hsp, capV_mk_heap _ _ _ hsp]
      omega
    · rw [lenV_mk_heap _ _ _ hsp]
    · rw [bufV_mk_heap _ _ _ hsp]
    · rw [capV_mk_heap _ _ _ hsp, hcV]
    · simp [spilled, hsp]
  · have hcV : capV v = N := capV_of_inline v hsp
    have hnN : ¬N < n := by omega
    have hst : setLen (setBuf v b) n = ⟨n, .inline b⟩ := by
      simp [setBuf, setLen, hsp]
    rw [hst]
    refine ⟨⟨⟨?_, ?_, ?_⟩, ?_⟩, ?_, ?_, ?_, ?_⟩
    · simp [spilled, isHeap, hnN]
    · rw [bufV_mk_inline _ _ hnN, capV_mk_inline _ _ hnN, hb, hwf.bufLen, hcV]
    · rw [capV_mk_inline _ _ hnN, ← hcV]
      exact hwf.cap_le
    · rw [lenV_mk_inline _ _ hnN, capV_mk_inline _ _ hnN]
      omega
    · exact lenV_mk_inline _ _ hnN
    · exact bufV_mk_inline _ _ hnN
    · rw [capV_mk_inline _ _ hnN, hcV]
    · simp [spilled, hnN, hsp]

/-- On a well-formed container whose live slots read back as the value
sequence s, length equals the length of s. -/
lemma lenV_eq_length (v : SmallVec α N) (s : List α) (hwf : WF v)
    (hs : elemsOpt v = s.map some) : lenV v = s.length := by
  have h1 : (elemsOpt v).length = lenV v :=
    length_elemsOpt v (by rw [hwf.bufLen]; exact hwf.len_le)
  rw [hs, List.length_map] at h1
  omega

/-- Live slot j of the buffer holds element j of the value sequence. -/
lemma getD_bufV (v : SmallVec α N) (s : List α) (hs : elemsOpt v = s.map some)
    (j : Nat) (hj : j < lenV v) : (bufV v).getD j none = s[j]? := by
  rw [← getD_take (bufV v) (lenV v) j hj, ← elemsOpt, hs, getD_map_some]

/-- C6: pop returns none exactly when the container is empty; otherwise
it decrements the length by one, returns the element of the vacated
last slot, and leaves the remaining elements, the capacity and the
spilled state unchanged. -/
theorem c6_pop_last (v : SmallVec α N) (s : List α)
    (hwf : WF v) (hs : elemsOpt v = s.map some) :
    ((pop v).1 = none ↔ s = []) ∧
    (∀ t a, s = t ++ [a] → ∃ v', pop v = (some a, v') ∧ lenV v' = t.length ∧
      elemsOpt v' = t.map some ∧ capV v' = capV v ∧ (spilled v' ↔ spilled v)) := by
  have hlen : lenV v = s.length := lenV_eq_length v s hwf hs
  constructor
  · by_cases h0 : lenV v = 0
    · rw [pop, if_pos h0]
      have hse : s = [] := List.length_eq_zero.mp (by omega)
      simp [hse]
    · rw [pop, if_neg h0]
      have hvl : (bufV v).getD (lenV v - 1) none = s[lenV v - 1]? :=
        getD_bufV v s hs _ (by omega)
      have hsome : s[lenV v - 1]? = some s[lenV v - 1] :=
        List.getElem?_eq_getElem (by omega)
      constructor
      · intro hcon
        rw [hvl, hsome] at hcon
        cases hcon
      · intro hcon
        rw [hcon] at hlen
        simp at hlen
        omega
  · intro t a hta
    have hlt : lenV v = t.length + 1 := by
      rw [hta] at hlen
      simpa using hlen
    rw [pop, if_neg (by omega)]
    have hval : (bufV v).getD (lenV v - 1) none = some a := by
      rw [getD_bufV v s hs _ (by omega), hta]
      have : lenV v - 1 = t.length := by omega
      rw [this, List.getElem?_concat_length]
    obtain ⟨hwf', hl', hb', hc', hsp'⟩ := setLen_spec v (lenV v - 1) hwf
      (by have := hwf.len_le; omega)
    refine ⟨setLen v (lenV v - 1), by rw [hval], by omega, ?_, hc', hsp'⟩
    rw [elemsOpt, hb', hl']
    have h1 : lenV v - 1 = t.length := by omega
    have hmin : t.length ⊓ lenV v = t.length := by omega
    rw [h1, ← hmin, ← List.take_take,
      show List.take (lenV v) (bufV v) = elemsOpt v from rfl, hs, hta, List.map_append]
    exact List.take_left' (by simp)

/-- C6 witness: popping [5, 7] held inline with inline capacity 2. -/
theorem c6_pop_last_witness :
    (WF (⟨2, .inline [some 5, some 7]⟩ : SmallVec Nat 2) ∧
      elemsOpt (⟨2, .inline [some 5, some 7]⟩ : SmallVec Nat 2) = [5, 7].map some) ∧
    (((pop (⟨2, .inline [some 5, some 7]⟩ : SmallVec Nat 2)).1 = none ↔ ([5, 7] : List Nat) = []) ∧
     (∀ t a, ([5, 7] : List Nat) = t ++ [a] →
        ∃ v', pop (⟨2, .inline [some 5, some 7]⟩ : SmallVec Nat 2) = (some a, v') ∧
          lenV v' = t.length ∧ elemsOpt v' = t.map some ∧
          capV v' = capV (⟨2, .inline [some 5, some 7]⟩ : SmallVec Nat 2) ∧
          (spilled v' ↔ spilled (⟨2, .inline [some 5, some 7]⟩ : SmallVec Nat 2)))) :=
  ⟨⟨by decide, by decide⟩,
    c6_pop_last (⟨2, .inline [some 5, some 7]⟩ : SmallVec Nat 2) [5, 7]
      (by decide) (by decide)⟩

/-- C9: a spilled container whose length is at most the inline capacity
returns to the non-spilled state under shrink_to_fit, with the element
values and their order unchanged. -/
theorem c9_shrink_to_fit_unspills (v : SmallVec α N)
    (hwf : WF v) (hsp : spilled v) (hle : lenV v ≤ N) :
    ∃ v', shrink_to_fit v = .ok v' ∧ ¬spilled v' ∧
      elemsOpt v' = elemsOpt v ∧ lenV v' = lenV v := by
  have hspc : N < v.capacity := hsp
  have hlen : lenV v = heapLen v.data := by rw [lenV, if_pos hspc]
  have hbv : bufV v = heapBuf v.data := by rw [bufV, if_pos hspc]
  have hcV : capV v = v.capacity := capV_of_spilled v hspc
  rw [shrink_to_fit, if_pos hspc, if_pos hle]
  have hnotsp : ¬N < heapLen v.data := by omega
  refine ⟨_, rfl, ?_, ?_, ?_⟩
  · exact hnotsp
  · rw [elemsOpt, bufV_mk_inline _ _ hnotsp, lenV_mk_inline _ _ hnotsp, elemsOpt, ← hlen,
      ← hbv]
    exact take_copyFront _ _ _ (by rw [hwf.bufLen]; exact hwf.len_le)
      (by rw [List.length_replicate]; omega)
  · rw [lenV_mk_inline _ _ hnotsp, hlen]

/-- C9 witness: a spilled container with inline capacity 2, heap
capacity 4 and elements [1, 2]. -/
theorem c9_shrink_to_fit_unspills_witness :
    (WF (⟨4, .heap [some 1, some 2, none, none] 2⟩ : SmallVec Nat 2) ∧
      spilled (⟨4, .heap [some 1, some 2, none, none] 2⟩ : SmallVec Nat 2) ∧
      lenV (⟨4, .heap [some 1, some 2, none, none] 2⟩ : SmallVec Nat 2) ≤ 2) ∧
    (∃ v', shrink_to_fit (⟨4, .heap [some 1, some 2, none, none] 2⟩ : SmallVec Nat 2) = .ok v' ∧
      ¬spilled v' ∧
      elemsOpt v' = elemsOpt (⟨4, .heap [some 1, some 2, none, none] 2⟩ : SmallVec Nat 2) ∧
      lenV v' = lenV (⟨4, .heap [some 1, some 2, none, none] 2⟩ : SmallVec Nat 2)) :=
  ⟨⟨by decide, by decide, by decide⟩,
    c9_shrink_to_fit_unspills (⟨4, .heap [some 1, some 2, none, none] 2⟩ : SmallVec Nat 2)
      (by decide) (by decide) (by decide)⟩

/-- C10: insert reserves capacity before validating the index: for an
index beyond the length the call panics with the length and the live
elements unchanged, but the panic state is exactly the post-reserve
state, whose capacity may already have grown (and spilled). -/
theorem c10_insert_reserves_before_bounds_check (v : SmallVec α N) (i : Nat) (x : α)
    (hwf : WF v) (hN : N < usizeMax) (hi : lenV v < i) :
    ∃ v', reserve v 1 = .ok v' ∧ insert v i x = .error v' ∧
      lenV v' = lenV v ∧ elemsOpt v' = elemsOpt v ∧ capV v ≤ capV v' := by
  obtain ⟨v', e, hwf', hl, he, hcle, _, _, _⟩ := reserve_spec v 1 hwf hN
  refine ⟨v', e, ?_, hl, he, hcle⟩
  rw [insert, e, ok_bind, if_neg (by omega)]

/-- C10 witness: a full inline container with inline capacity 2; an
insert at the out-of-bounds index 5 panics, but only after the reserve
step has already spilled the container to heap capacity 4. -/
theorem c10_insert_reserves_before_bounds_check_witness :
    (WF (⟨2, .inline [some 1, some 2]⟩ : SmallVec Nat 2) ∧ 2 < usizeMax ∧
      lenV (⟨2, .inline [some 1, some 2]⟩ : SmallVec Nat 2) < 5) ∧
    (∃ v', reserve (⟨2, .inline [some 1, some 2]⟩ : SmallVec Nat 2) 1 = .ok v' ∧
      insert (⟨2, .inline [some 1, some 2]⟩ : SmallVec Nat 2) 5 9 = .error v' ∧
      lenV v' = lenV (⟨2, .inline [some 1, some 2]⟩ : SmallVec Nat 2) ∧
      elemsOpt v' = elemsOpt (⟨2, .inline [some 1, some 2]⟩ : SmallVec Nat 2) ∧
      capV (⟨2, .inline [some 1, some 2]⟩ : SmallVec Nat 2) ≤ capV v') ∧
    errState (insert (⟨2, .inline [some 1, some 2]⟩ : SmallVec Nat 2) 5 9) =
      some ⟨4, .heap [some 1, some 2, none, none] 2⟩ ∧
    spilled (⟨4, .heap [some 1, some 2, none, none] 2⟩ : SmallVec Nat 2) :=
  ⟨⟨by decide, by decide, by decide⟩,
    c10_insert_reserves_before_bounds_check (⟨2, .inline [some 1, some 2]⟩ : SmallVec Nat 2)
      5 9 (by decide) (by decide) (by decide),
    by decide, by decide⟩

/-- Specification of SmallVec::insert at a valid index: the value lands
at the index and the tail shifts right by one slot. -/
lemma insert_spec (v : SmallVec α N) (s : List α) (i : Nat) (x : α)
    (hwf : WF v) (hs : elemsOpt v = s.map some) (hi : i ≤ s.length)
    (hsl : s.length < usizeMax) (hN : N < usizeMax) :
    ∃ v', insert v i x = .ok v' ∧ WF v' ∧ lenV v' = s.length + 1 ∧
      elemsOpt v' = (s.take i ++ x :: s.drop i).map some := by
  have hlen : lenV v = s.length := lenV_eq_length v s hwf hs
  obtain ⟨v₁, e₁, hwf₁, hl₁, he₁, hcle, htrig, hntrig, haddle⟩ := reserve_spec v 1 hwf hN
  have hcap1 : lenV v + 1 ≤ capV v₁ := haddle (by omega)
  rw [insert, e₁, ok_bind, if_pos (by omega : i ≤ lenV v₁)]
  set b : List (Option α) := (memCopy (bufV v₁) i (i + 1) (lenV v₁ - i)).set i (some x)
    with hbdef
  have hbl : b.length = (bufV v₁).length := by
    rw [hbdef, List.length_set, length_memCopy]
  obtain ⟨hwf', hl', hb', hc', hsp'⟩ := writeState_spec v₁ b (lenV v₁ + 1) hwf₁
    hbl (by omega)
  refine ⟨_, rfl, hwf', by omega, ?_⟩
  rw [elemsOpt, hb', hl']
  have hbuflen : (bufV v₁).length = capV v₁ := hwf₁.bufLen
  have hslot : ∀ j, j < lenV v₁ → (bufV v₁).getD j none = s[j]? := by
    intro j hj
    exact getD_bufV v₁ s (by rw [he₁, hs]) j hj
  set T : List (Option α) := (s.take i ++ x :: s.drop i).map some with hTdef
  have hTlen : T.length = s.length + 1 := by
    rw [hTdef]
    simp
    omega
  have him : i ⊓ s.length = i := by omega
  have hpt : ∀ j, j < s.length + 1 → b.getD j none = T.getD j none := by
    intro j hj
    rw [hbdef, getD_set, length_memCopy, getD_memCopy, hTdef, getD_map_some,
      List.getElem?_append, List.length_take, him]
    by_cases hji : j < i
    · rw [if_neg (by omega), if_neg (by omega), if_pos hji, List.getElem?_take, if_pos hji]
      exact hslot j (by omega)
    · by_cases hje : j = i
      · rw [if_pos ⟨hje.symm, by omega⟩, if_neg (by omega),
          show j - i = 0 from by omega, List.getElem?_cons_zero]
      · rw [if_neg (by omega), if_pos (by omega), if_neg (by omega),
          show i + (j - (i + 1)) = j - 1 from by omega,
          show j - i = (j - i - 1) + 1 from by omega,
          List.getElem?_cons_succ, List.getElem?_drop,
          show i + (j - i - 1) = j - 1 from by omega]
        exact hslot (j - 1) (by omega)
  have e := take_ext b T (s.length + 1) (by omega) (by omega) hpt
  rw [hl₁, hlen, e, ← hTlen, List.take_length]

/-- Specification of SmallVec::remove at a valid index: the element at
the index comes back and the tail shifts left by one slot. -/
lemma remove_spec (v : SmallVec α N) (t : List α) (i : Nat)
    (hwf : WF v) (hs : elemsOpt v = t.map some) (hi : i < t.length) :
    ∃ v', remove v i = .ok (t[i]?, v') ∧ WF v' ∧ lenV v' = t.length - 1 ∧
      elemsOpt v' = (t.take i ++ t.drop (i + 1)).map some := by
  have hlen : lenV v = t.length := lenV_eq_length v t hwf hs
  rw [remove, if_pos (by omega)]
  set b : List (Option α) := memCopy (bufV v) (i + 1) i (lenV v - i - 1) with hbdef
  have hbl : b.length = (bufV v).length := by
    rw [hbdef, length_memCopy]
  obtain ⟨hwf', hl', hb', hc', hsp'⟩ := writeState_spec v b (lenV v - 1) hwf hbl
    (by have := hwf.len_le; omega)
  have hval : (bufV v).getD i none = t[i]? := getD_bufV v t hs i (by omega)
  refine ⟨_, by rw [hval], hwf', by omega, ?_⟩
  rw [elemsOpt, hb', hl']
  have hbuflen : (bufV v).length = capV v := hwf.bufLen
  have hlc : lenV v ≤ capV v := hwf.len_le
  have hslot : ∀ j, j < lenV v → (bufV v).getD j none = t[j]? :=
    fun j hj => getD_bufV v t hs j hj
  set T : List (Option α) := (t.take i ++ t.drop (i + 1)).map some with hTdef
  have hTlen : T.length = t.length - 1 := by
    rw [hTdef]
    simp
    omega
  have him : i ⊓ t.length = i := by omega
  have hpt : ∀ j, j < t.length - 1 → b.getD j none = T.getD j none := by
    intro j hj
    rw [hbdef, getD_memCopy, hTdef, getD_map_some, List.getElem?_append,
      List.length_take, him]
    by_cases hji : j < i
    · rw [if_neg (by omega), if_pos hji, List.getElem?_take, if_pos hji]
      exact hslot j (by omega)
    · rw [if_pos (by omega), if_neg (by omega), List.getElem?_drop,
        show i + 1 + (j - i) = j + 1 from by omega]
      exact hslot (j + 1) (by omega)
  have e := take_ext b T (t.length - 1) (by omega) (by omega) hpt
  rw [hlen, e, ← hTlen, List.take_length]

/-- C7: insert(i, x) immediately followed by remove(i) returns x and
restores the prior element sequence. -/
theorem c7_insert_remove_inverse (v : SmallVec α N) (s : List α) (i : Nat) (x : α)
    (hwf : WF v) (hs : elemsOpt v = s.map some) (hi : i ≤ s.length)
    (hsl : s.length < usizeMax) (hN : N < usizeMax) :
    ∃ v₁ v₂, insert v i x = .ok v₁ ∧ remove v₁ i = .ok (some x, v₂) ∧
      elemsOpt v₂ = s.map some := by
  obtain ⟨v₁, e₁, hwf₁, hl₁, he₁⟩ := insert_spec v s i x hwf hs hi hsl hN
  set t : List α := s.take i ++ x :: s.drop i with htdef
  have hlt : (s.take i).length = i := by
    rw [List.length_take]
    omega
  have hit : i < t.length := by
    rw [htdef]
    simp
    omega
  obtain ⟨v₂, e₂, hwf₂, hl₂, he₂⟩ := remove_spec v₁ t i hwf₁ he₁ hit
  have hti : t[i]? = some x := by
    rw [htdef, List.getElem?_append, hlt, if_neg (by omega),
      show i - i = 0 from by omega, List.getElem?_cons_zero]
  have h1 : t.take i = s.take i := by
    rw [htdef]
    exact List.take_left' hlt
  have h2 : t.drop (i + 1) = s.drop i := by
    rw [htdef, show i + 1 = (s.take i).length + 1 from by rw [hlt], List.drop_append 1]
    rfl
  refine ⟨v₁, v₂, e₁, by rw [e₂, hti], ?_⟩
  rw [he₂, h1, h2, List.take_append_drop]

/-- C7 witness: inserting 9 at index 1 of [5, 7] (inline capacity 2,
full) and removing it again returns 9 and restores [5, 7]. -/
theorem c7_insert_remove_inverse_witness :
    (WF (⟨2, .inline [some 5, some 7]⟩ : SmallVec Nat 2) ∧
      elemsOpt (⟨2, .inline [some 5, some 7]⟩ : SmallVec Nat 2) = [5, 7].map some ∧
      1 ≤ ([5, 7] : List Nat).length ∧ ([5, 7] : List Nat).length < usizeMax ∧
      2 < usizeMax) ∧
    (∃ v₁ v₂, insert (⟨2, .inline [some 5, some 7]⟩ : SmallVec Nat 2) 1 9 = .ok v₁ ∧
      remove v₁ 1 = .ok (some 9, v₂) ∧ elemsOpt v₂ = [5, 7].map some) :=
  ⟨⟨by decide, by decide, by decide, by decide, by decide⟩,
    c7_insert_remove_inverse (⟨2, .inline [some 5, some 7]⟩ : SmallVec Nat 2) [5, 7] 1 9
      (by decide) (by decide) (by decide) (by decide) (by decide)⟩

end SmallVecSpec
